import Mathlib

/-!
# opencensus-go: the tag map, the int64 measure and the default gRPC data

A shallow embedding of `tags/map.go`, `stats/measure_int64.go` and
`plugins/grpc/stats/types.go`.

Both files keep their state in a builtin Go map.  `GoMap` embeds that builtin:
a finite collection of entries whose keys are pairwise distinct.  The order of
`entries` stands for the order in which a `range` loop visits the map, which Go
leaves unspecified; every statement below quantifies over all `GoMap` values and
so over every such order.

Methods with a pointer receiver that mutate the receiver become functions that
return the new state.
-/

/-- Go's builtin `map[κ]β` after `make`: entries with pairwise distinct keys.
The list order is the (unspecified) order of a `range` loop. -/
structure GoMap (κ : Type) (β : Type) where
  entries : List (κ × β)
  nodup : (entries.map Prod.fst).Nodup

namespace GoMap

variable {κ β : Type} [DecidableEq κ]

/-- `make(map[κ]β, sizeHint)`: the hint only sizes the allocation.  Go makes a
run-time panic of a negative size for slices and channels only, so every hint
gives the empty map. -/
def make (_sizeHint : Int) : GoMap κ β :=
  ⟨[], List.nodup_nil⟩

/-- The comma-ok index expression `b, ok := m[k]`: `some b` when `ok`. -/
def get? (m : GoMap κ β) (k : κ) : Option β :=
  (m.entries.find? (fun e => decide (e.1 = k))).map Prod.snd

/-- The plain index expression `m[k]`: the zero value when `k` is absent. -/
def index (m : GoMap κ β) (k : κ) (zero : β) : β :=
  (m.get? k).getD zero

/-- The builtin `delete(m, k)`. -/
def delete (m : GoMap κ β) (k : κ) : GoMap κ β :=
  ⟨m.entries.filter (fun e => decide (e.1 ≠ k)),
    (List.filter_sublist m.entries).map Prod.fst |>.nodup m.nodup⟩

/-- The assignment `m[k] = v`: any old entry of `k` is replaced. -/
def set (m : GoMap κ β) (k : κ) (v : β) : GoMap κ β :=
  ⟨(k, v) :: (m.delete k).entries,
    List.nodup_cons.mpr ⟨by simp [delete, List.mem_map, List.mem_filter], (m.delete k).nodup⟩⟩

/-- The builtin `len(m)`. -/
def len (m : GoMap κ β) : Nat :=
  m.entries.length

/-- The keys in the order `for k := range m` yields them. -/
def keys (m : GoMap κ β) : List κ :=
  m.entries.map Prod.fst

end GoMap

/-- `sort.Slice(s, less)` of the Go standard library, as the insertion sort it
runs on short slices: an element moves left while it is `less` than its
predecessor.  The library promises a sorted rearrangement and no more (the sort
need not be stable); where that freedom could show, the statements below say
which arrangements are possible. -/
def sortSlice {α : Type} (less : α → α → Bool) (s : List α) : List α :=
  s.insertionSort (fun a b => less b a = false)

/-- Go's `a < b` on strings: lexicographic comparison, character by character. -/
def stringLess (a b : String) : Bool :=
  decide (a.data < b.data)

namespace tags

/-- A Go `[]byte`. -/
abbrev Bytes := List (Fin 256)

/-- Modelled from the spec: the `Key` interface of package `tags`, whose
declaration is not among the sources.  A key "identifies a dimension by name"
and "knows how to decode its own Value to a human-readable string"; these are
the two methods `map.go` calls. -/
class Key (K : Type) where
  Name : K → String
  ValueToString : K → Bytes → String

/-- Modelled from the spec: a string key as `tags.NewStringKey(name)` returns it
(`types.go` line 79); its declaration is not among the sources.  Its value is
the text itself, one byte per character. -/
structure StringKey where
  name : String
deriving DecidableEq

instance : Key StringKey where
  Name k := k.name
  ValueToString _ b := String.mk (b.map (fun x => Char.ofNat x.val))

/-- `type Map struct { m map[Key][]byte }`.  Maps are built by `newMap`
("Use NewMap to build tag maps", `map.go` line 30), so `m` is an allocated
map. -/
structure Map (K : Type) where
  m : GoMap K Bytes

variable {K : Type} [DecidableEq K]

/-- `func newMap(sizeHint int) *Map` -/
def newMap (sizeHint : Int) : Map K :=
  ⟨GoMap.make sizeHint⟩

/-- `func (m *Map) ValueToString(k Key) (encoded string, ok bool)` -/
def Map.ValueToString [Key K] (m : Map K) (k : K) : String × Bool :=
  match m.m.get? k with
  | none => ("", false)
  | some b => (Key.ValueToString k b, true)

/-- `func (m *Map) insert(k Key, v []byte)` -/
def Map.insert (m : Map K) (k : K) (v : Bytes) : Map K :=
  match m.m.get? k with
  | some _ => m
  | none => ⟨m.m.set k v⟩

/-- `func (m *Map) update(k Key, v []byte)` -/
def Map.update (m : Map K) (k : K) (v : Bytes) : Map K :=
  match m.m.get? k with
  | some _ => ⟨m.m.set k v⟩
  | none => m

/-- `func (m *Map) upsert(k Key, v []byte)` -/
def Map.upsert (m : Map K) (k : K) (v : Bytes) : Map K :=
  ⟨m.m.set k v⟩

/-- `func (m *Map) delete(k Key)` -/
def Map.delete (m : Map K) (k : K) : Map K :=
  ⟨m.m.delete k⟩

/-- `fmt.Sprintf("{%v %v}", name, value)` on two strings. -/
def sprintfEntry (name value : String) : String :=
  "\x7b" ++ name ++ " " ++ value ++ "\x7d"

/-- The keys `Map.String` renders, in rendering order: collected by the `range`
loop, then sorted by name. -/
def Map.sortedKeys [Key K] (m : Map K) : List K :=
  let keys := m.m.keys.foldl (fun keys k => keys ++ [k]) []
  sortSlice (fun a b => stringLess (Key.Name a) (Key.Name b)) keys

/-- `func (m *Map) String() string` -/
def Map.String [Key K] (m : Map K) : String :=
  let keys := m.sortedKeys
  let buffer := "\x7b "
  let buffer := keys.foldl
    (fun buffer k => buffer ++ sprintfEntry (Key.Name k) (Key.ValueToString k (m.m.index k []))) buffer
  buffer ++ " \x7d"

/-- One call of a mutator of `Map`, with its arguments. -/
inductive Call (K : Type) where
  | insert (k : K) (v : Bytes)
  | update (k : K) (v : Bytes)
  | upsert (k : K) (v : Bytes)
  | delete (k : K)

/-- The key a call is made on. -/
def Call.key : Call K → K
  | .insert k _ => k
  | .update k _ => k
  | .upsert k _ => k
  | .delete k => k

/-- The map after one mutator call. -/
def Map.call (m : Map K) : Call K → Map K
  | .insert k v => m.insert k v
  | .update k v => m.update k v
  | .upsert k v => m.upsert k v
  | .delete k => m.delete k

/-- The map after a sequence of mutator calls, first call first. -/
def Map.calls (m : Map K) (cs : List (Call K)) : Map K :=
  cs.foldl Map.call m

/-- The reference model of the spec: a "mapping from Key to encoded Value". -/
abbrev Model (K : Type) := K → Option Bytes

/-- The reference model starts with no key. -/
def Model.empty : Model K :=
  fun _ => none

/-- The sequential semantics of the spec on the reference model: "`insert` never
overwrites an existing key; `update` never creates a new key; `upsert` always
sets; `delete` removes unconditionally". -/
def Model.call (f : Model K) : Call K → Model K
  | .insert k v => fun x => if x = k then (if (f k).isSome then f k else some v) else f x
  | .update k v => fun x => if x = k then (if (f k).isSome then some v else none) else f x
  | .upsert k v => fun x => if x = k then some v else f x
  | .delete k => fun x => if x = k then none else f x

/-- The reference model after a sequence of calls, first call first. -/
def Model.calls (f : Model K) (cs : List (Call K)) : Model K :=
  cs.foldl Model.call f

end tags

namespace stats

/-- `type MeasureInt64 struct`.  `V` is the type of `*View` pointers, compared
by identity; `views` is an allocated map, as `addView` requires. -/
structure MeasureInt64 (V : Type) where
  name : String
  unit : String
  description : String
  views : GoMap V Bool

variable {V : Type} [DecidableEq V]

/-- `func (m *MeasureInt64) addView(v *View)` -/
def MeasureInt64.addView (m : MeasureInt64 V) (v : V) : MeasureInt64 V :=
  { m with views := m.views.set v true }

/-- `func (m *MeasureInt64) removeView(v *View)` -/
def MeasureInt64.removeView (m : MeasureInt64 V) (v : V) : MeasureInt64 V :=
  { m with views := m.views.delete v }

/-- `func (m *MeasureInt64) viewsCount() int` -/
def MeasureInt64.viewsCount (m : MeasureInt64 V) : Nat :=
  m.views.len

/-- `type measurementInt64 struct { m *MeasureInt64; v int64 }`: the measure the
pointer `m` refers to, and the value. -/
structure measurementInt64 (V : Type) where
  m : MeasureInt64 V
  v : Int

/-- `func (m *MeasureInt64) M(v int64) Measurement`: the measurement returned,
and the receiver after the call. -/
def MeasureInt64.M (m : MeasureInt64 V) (v : Int) : measurementInt64 V × MeasureInt64 V :=
  (⟨m, v⟩, m)

/-- Modelled from the spec: the `SlidingTimeWindow` struct of package `stats`,
whose declaration is not among the sources; a sliding-time window is
"parameterized by a total duration D and a subbucket count N".  The fields are
the two that `types.go` lines 68 and 69 set; a `time.Duration` counts
nanoseconds. -/
structure SlidingTimeWindow where
  Duration : Int
  Intervals : Int
deriving DecidableEq

end stats

/-! The constants of Go's package `time`, in nanoseconds. -/

namespace time

/-- `time.Nanosecond` -/
def Nanosecond : Int := 1

/-- `time.Microsecond` -/
def Microsecond : Int := 1000 * Nanosecond

/-- `time.Millisecond` -/
def Millisecond : Int := 1000 * Microsecond

/-- `time.Second` -/
def Second : Int := 1000 * Millisecond

/-- `time.Minute` -/
def Minute : Int := 60 * Second

/-- `time.Hour` -/
def Hour : Int := 60 * Minute

end time

/-! The default data of `plugins/grpc/stats/types.go`.  A `float64` boundary is
written as the rational it denotes: every literal is an integer below `2^53`,
which `float64` holds exactly, so `<` on the floats is `<` on these numbers. -/

namespace grpc.stats

/-- `slidingTimeSubuckets = 6` -/
def slidingTimeSubuckets : Int := 6

/-- `rpcBytesBucketBoundaries` -/
def rpcBytesBucketBoundaries : List ℚ :=
  [0, 1024, 2048, 4096, 16384, 65536, 262144, 1048576, 4194304, 16777216, 67108864, 268435456,
    1073741824, 4294967296]

/-- `rpcMillisBucketBoundaries` -/
def rpcMillisBucketBoundaries : List ℚ :=
  [0, 1, 2, 3, 4, 5, 6, 8, 10, 13, 16, 20, 25, 30, 40, 50, 65, 80, 100, 130, 160, 200, 250, 300,
    400, 500, 650, 800, 1000, 2000, 5000, 10000, 20000, 50000, 100000]

/-- `rpcCountBucketBoundaries` -/
def rpcCountBucketBoundaries : List ℚ :=
  [0, 1, 2, 4, 8, 16, 32, 64, 128, 256, 512, 1024, 2048, 4096, 8192, 16384, 32768, 65536]

/-- `windowSlidingHour` -/
def windowSlidingHour : stats.SlidingTimeWindow :=
  { Duration := 1 * time.Hour, Intervals := 6 }

/-- `windowSlidingMinute` -/
def windowSlidingMinute : stats.SlidingTimeWindow :=
  { Duration := 1 * time.Minute, Intervals := 6 }

/-- The package variables `keyService`, `keyMethod` and `keyOpStatus`. -/
structure DefaultKeys where
  keyService : tags.StringKey
  keyMethod : tags.StringKey
  keyOpStatus : tags.StringKey
deriving DecidableEq

/-- How a call ends: it returns to its caller with the package variables in
state `s`, or the process ends with an exit status after writing to the log. -/
inductive Outcome (σ : Type) where
  | returns (s : σ)
  | exits (status : Nat) (logged : String)
deriving DecidableEq

/-- `log.Fatalf(format, v...)` of the Go standard library: it writes the
formatted message and calls `os.Exit(1)`. -/
def logFatalf {σ : Type} (message : String) : Outcome σ :=
  .exits 1 message

/-- `func createDefaultKeys()`.  `NewStringKey` is `tags.NewStringKey`, which is
not among the sources: it gives a key and an error, `none` for `nil`.  `g` holds
the package variables before the call. -/
def createDefaultKeys (NewStringKey : String → tags.StringKey × Option String)
    (g : DefaultKeys) : Outcome DefaultKeys :=
  let (key, err) := NewStringKey "grpc.service"
  let g := { g with keyService := key }
  match err with
  | some e =>
    logFatalf ("tags.NewStringKey(\"grpc.service\") failed to create/retrieve keyService. " ++ e)
  | none =>
    let (key, err) := NewStringKey "grpc.method"
    let g := { g with keyMethod := key }
    match err with
    | some e =>
      logFatalf ("tags.NewStringKey(\"grpc.method\") failed to create/retrieve keyMethod. " ++ e)
    | none =>
      let (key, err) := NewStringKey "grpc.opstatus"
      let g := { g with keyOpStatus := key }
      match err with
      | some e =>
        logFatalf
          ("tags.NewStringKey(\"grpc.opstatus\") failed to create/retrieve keyOpStatus. " ++ e)
      | none => .returns g

end grpc.stats

/-! ## Facts about the builtin map -/

namespace GoMap

theorem eq_of_entries_eq {κ β : Type} {m₁ m₂ : GoMap κ β} (h : m₁.entries = m₂.entries) :
    m₁ = m₂ := by
  cases m₁; cases m₂; cases h; rfl

variable {κ β : Type} [DecidableEq κ]

theorem get?_eq_some_iff (m : GoMap κ β) (k : κ) (b : β) :
    m.get? k = some b ↔ (k, b) ∈ m.entries := by
  obtain ⟨l, hl⟩ := m
  simp only [get?]
  induction l with
  | nil => simp
  | cons e l ih =>
    obtain ⟨a, c⟩ := e
    have hnd := List.nodup_cons.mp hl
    by_cases hak : a = k
    · subst hak
      have hnot : (a, b) ∉ l := fun hmem => hnd.1 (List.mem_map.mpr ⟨(a, b), hmem, rfl⟩)
      simp [List.find?_cons, hnot, eq_comm]
    · have hne : ¬ (k = a) := fun h => hak h.symm
      simp [List.find?_cons, hak, hne, ih hnd.2]

theorem get?_isSome_iff (m : GoMap κ β) (k : κ) : (m.get? k).isSome = true ↔ k ∈ m.keys := by
  rw [Option.isSome_iff_exists]
  constructor
  · rintro ⟨b, hb⟩
    exact List.mem_map.mpr ⟨(k, b), (m.get?_eq_some_iff k b).mp hb, rfl⟩
  · intro hk
    obtain ⟨⟨a, b⟩, he, rfl⟩ := List.mem_map.mp hk
    exact ⟨b, (m.get?_eq_some_iff a b).mpr he⟩

theorem get?_eq_none_iff (m : GoMap κ β) (k : κ) : m.get? k = none ↔ k ∉ m.keys := by
  constructor
  · intro h hk
    have hs := (m.get?_isSome_iff k).mpr hk
    rw [h] at hs
    exact Bool.false_ne_true hs
  · intro h
    cases hget : m.get? k with
    | none => rfl
    | some b => exact absurd ((m.get?_isSome_iff k).mp (by rw [hget]; rfl)) h

theorem mem_keys_delete (m : GoMap κ β) (k x : κ) :
    x ∈ (m.delete k).keys ↔ x ≠ k ∧ x ∈ m.keys := by
  simp only [keys, delete, List.mem_map, List.mem_filter]
  constructor
  · rintro ⟨e, ⟨he, hk⟩, rfl⟩
    exact ⟨of_decide_eq_true hk, e, he, rfl⟩
  · rintro ⟨hx, e, he, rfl⟩
    exact ⟨e, ⟨he, decide_eq_true hx⟩, rfl⟩

theorem mem_keys_set (m : GoMap κ β) (k : κ) (v : β) (x : κ) :
    x ∈ (m.set k v).keys ↔ x = k ∨ x ∈ m.keys := by
  have h := m.mem_keys_delete k x
  simp only [keys] at h
  simp only [keys, set, List.map_cons, List.mem_cons, h]
  by_cases hx : x = k <;> simp [hx]

theorem get?_delete_self (m : GoMap κ β) (k : κ) : (m.delete k).get? k = none := by
  rw [get?_eq_none_iff, mem_keys_delete]
  exact fun h => h.1 rfl

theorem get?_delete_of_ne (m : GoMap κ β) {k x : κ} (h : x ≠ k) :
    (m.delete k).get? x = m.get? x := by
  apply Option.ext
  intro b
  simp only [Option.mem_def]
  rw [get?_eq_some_iff, get?_eq_some_iff]
  simp [delete, List.mem_filter, h]

theorem get?_set_self (m : GoMap κ β) (k : κ) (v : β) : (m.set k v).get? k = some v := by
  rw [get?_eq_some_iff]
  simp [set]

theorem get?_set_of_ne (m : GoMap κ β) {k x : κ} (v : β) (h : x ≠ k) :
    (m.set k v).get? x = m.get? x := by
  rw [← m.get?_delete_of_ne h]
  apply Option.ext
  intro b
  simp only [Option.mem_def]
  rw [get?_eq_some_iff, get?_eq_some_iff]
  simp [set, h]

/-- Two maps with the same entries in any order answer every lookup alike. -/
theorem get?_eq_of_perm (m₁ m₂ : GoMap κ β) (h : m₁.entries.Perm m₂.entries) (k : κ) :
    m₁.get? k = m₂.get? k := by
  apply Option.ext
  intro b
  simp only [Option.mem_def, get?_eq_some_iff]
  exact h.mem_iff

theorem delete_eq_self (m : GoMap κ β) {k : κ} (h : m.get? k = none) : m.delete k = m := by
  apply eq_of_entries_eq
  simp only [delete]
  rw [List.filter_eq_self]
  intro e he
  apply decide_eq_true
  intro hk
  exact (m.get?_eq_none_iff k).mp h (List.mem_map.mpr ⟨e, he, hk⟩)

theorem len_delete_of_mem (m : GoMap κ β) {k : κ} (h : k ∈ m.keys) :
    (m.delete k).len + 1 = m.len := by
  obtain ⟨l, hl⟩ := m
  simp only [keys, delete, len] at h ⊢
  induction l with
  | nil => simp at h
  | cons e l ih =>
    have hnd := List.nodup_cons.mp hl
    by_cases hek : e.1 = k
    · have hnot : k ∉ l.map Prod.fst := hek ▸ hnd.1
      have hfil : l.filter (fun e => decide (e.1 ≠ k)) = l := by
        rw [List.filter_eq_self]
        intro x hx
        exact decide_eq_true (fun hxk => hnot (List.mem_map.mpr ⟨x, hx, hxk⟩))
      rw [List.filter_cons_of_neg (by simp [hek]), hfil, List.length_cons]
    · rw [List.map_cons, List.mem_cons] at h
      have hk : k ∈ l.map Prod.fst := h.resolve_left (fun h1 => hek h1.symm)
      rw [List.filter_cons_of_pos (by simp [hek]), List.length_cons, List.length_cons,
        ih hnd.2 hk]

theorem len_set_of_mem (m : GoMap κ β) {k : κ} (v : β) (h : k ∈ m.keys) :
    (m.set k v).len = m.len := by
  rw [← m.len_delete_of_mem h]
  simp [set, len]

theorem len_set_of_not_mem (m : GoMap κ β) {k : κ} (v : β) (h : k ∉ m.keys) :
    (m.set k v).len = m.len + 1 := by
  have hd := m.delete_eq_self ((m.get?_eq_none_iff k).mpr h)
  show (m.delete k).entries.length + 1 = m.entries.length + 1
  rw [hd]

end GoMap

/-! ## The tag map: the four mutators and the lookup -/

namespace tags

variable {K : Type} [DecidableEq K]

/-- C1: `insert` never overwrites.  If `k` is already present with value `v`,
then `insert k v2` returns the map unchanged and `k` still maps to `v`; and on a
map lacking `k`, `insert k v` followed by `insert k v2` changes nothing more and
leaves `k` mapped to `v`. -/
theorem insert_never_overwrites (m : Map K) (k : K) (v v2 : Bytes) :
    (m.m.get? k = some v → m.insert k v2 = m ∧ (m.insert k v2).m.get? k = some v) ∧
    (m.m.get? k = none →
      (m.insert k v).insert k v2 = m.insert k v ∧
      ((m.insert k v).insert k v2).m.get? k = some v) := by
  have hpresent : ∀ (m : Map K) (b : Bytes), m.m.get? k = some b → m.insert k v2 = m := by
    intro m b hb
    simp only [Map.insert, hb]
  refine ⟨fun h => ⟨hpresent m v h, ?_⟩, fun h => ?_⟩
  · rw [hpresent m v h, h]
  · have h1 : (m.insert k v).m.get? k = some v := by
      simp only [Map.insert, h]
      exact m.m.get?_set_self k v
    exact ⟨hpresent _ v h1, by rw [hpresent _ v h1, h1]⟩

/-- Both cases of C1 at concrete maps: a map already holding key `a`, and the
empty map. -/
theorem insert_never_overwrites_witness :
    (((newMap 0 : Map StringKey).upsert ⟨"a"⟩ [1]).insert ⟨"a"⟩ [2]).m.get? ⟨"a"⟩ = some [1] ∧
    (((newMap 0 : Map StringKey).insert ⟨"a"⟩ [1]).insert ⟨"a"⟩ [2]).m.get? ⟨"a"⟩ = some [1] :=
  ⟨((insert_never_overwrites ((newMap 0 : Map StringKey).upsert ⟨"a"⟩ [1]) ⟨"a"⟩ [1] [2]).1
      (by decide)).2,
    ((insert_never_overwrites (newMap 0 : Map StringKey) ⟨"a"⟩ [1] [2]).2 (by decide)).2⟩

/-- C2: `update` never creates a key.  If `k` is absent the map is returned
unchanged (so on the empty map no key `k` appears); if `k` is present it maps to
`v` afterwards and the key set is the same as before. -/
theorem update_never_creates (m : Map K) (k : K) (v : Bytes) :
    (m.m.get? k = none → m.update k v = m) ∧
    (∀ sizeHint : Int, ((newMap sizeHint : Map K).update k v).m.get? k = none) ∧
    (∀ b : Bytes, m.m.get? k = some b →
      (m.update k v).m.get? k = some v ∧
      ∀ x : K, x ∈ (m.update k v).m.keys ↔ x ∈ m.m.keys) := by
  refine ⟨fun h => ?_, fun sizeHint => ?_, fun b hb => ?_⟩
  · simp only [Map.update, h]
  · have h0 : (newMap sizeHint : Map K).m.get? k = none := rfl
    simp only [Map.update, h0]
  · have hk : k ∈ m.m.keys := (m.m.get?_isSome_iff k).mp (by rw [hb]; rfl)
    simp only [Map.update, hb]
    refine ⟨m.m.get?_set_self k v, fun x => ?_⟩
    rw [GoMap.mem_keys_set]
    constructor
    · rintro (rfl | hx)
      · exact hk
      · exact hx
    · exact Or.inr

/-- Both cases of C2 at concrete maps: the empty map, and a map holding `a`. -/
theorem update_never_creates_witness :
    (newMap 0 : Map StringKey).update ⟨"a"⟩ [1] = newMap 0 ∧
    (((newMap 0 : Map StringKey).upsert ⟨"a"⟩ [1]).update ⟨"a"⟩ [2]).m.get? ⟨"a"⟩ = some [2] :=
  ⟨(update_never_creates (newMap 0 : Map StringKey) ⟨"a"⟩ [1]).1 (by decide),
    ((update_never_creates ((newMap 0 : Map StringKey).upsert ⟨"a"⟩ [1]) ⟨"a"⟩ [2]).2.2 [1]
      (by decide)).1⟩

/-- C3: `upsert` always sets.  After `upsert k v` the key `k` is present and
maps to `v`, whatever the map held before, and the key set is the old key set
with `k` added. -/
theorem upsert_always_sets (m : Map K) (k : K) (v : Bytes) :
    (m.upsert k v).m.get? k = some v ∧
    k ∈ (m.upsert k v).m.keys ∧
    ∀ x : K, x ∈ (m.upsert k v).m.keys ↔ x = k ∨ x ∈ m.m.keys :=
  ⟨m.m.get?_set_self k v, (m.m.mem_keys_set k v k).mpr (Or.inl rfl), m.m.mem_keys_set k v⟩

/-- C4: `delete` removes unconditionally.  After `delete k` the key `k` is
absent and `ValueToString k` reports not found, whether or not `k` was present;
every other key keeps its entry; deleting an absent key returns the map
unchanged. -/
theorem delete_removes_unconditionally [Key K] (m : Map K) (k : K) :
    (m.delete k).m.get? k = none ∧
    k ∉ (m.delete k).m.keys ∧
    (m.delete k).ValueToString k = ("", false) ∧
    (m.m.get? k = none → m.delete k = m) := by
  have h : (m.delete k).m.get? k = none := m.m.get?_delete_self k
  refine ⟨h, ((m.delete k).m.get?_eq_none_iff k).mp h, ?_, fun habs => ?_⟩
  · simp only [Map.ValueToString, h]
  · simp only [Map.delete, m.m.delete_eq_self habs]

/-- The last case of C4 at the empty map, and a deletion of a present key. -/
theorem delete_removes_unconditionally_witness :
    (newMap 0 : Map StringKey).delete ⟨"a"⟩ = newMap 0 ∧
    (((newMap 0 : Map StringKey).upsert ⟨"a"⟩ [1]).delete ⟨"a"⟩).ValueToString ⟨"a"⟩
      = ("", false) :=
  ⟨(delete_removes_unconditionally (newMap 0 : Map StringKey) ⟨"a"⟩).2.2.2 (by decide),
    (delete_removes_unconditionally ((newMap 0 : Map StringKey).upsert ⟨"a"⟩ [1]) ⟨"a"⟩).2.2.1⟩

/-- C8: `Map.ValueToString k` returns `ok = true` exactly when `k` is a key of
the map.  When `k` is present with encoded value `b` the result is the key's own
decoding of `b` with `true`; when `k` is absent it is the empty text with
`false`. -/
theorem valueToString_ok_iff_present [Key K] (m : Map K) (k : K) :
    ((m.ValueToString k).2 = true ↔ k ∈ m.m.keys) ∧
    (∀ b : Bytes, (k, b) ∈ m.m.entries → m.ValueToString k = (Key.ValueToString k b, true)) ∧
    (k ∉ m.m.keys → m.ValueToString k = ("", false)) := by
  refine ⟨?_, fun b hb => ?_, fun habs => ?_⟩
  · rw [← GoMap.get?_isSome_iff]
    cases hget : m.m.get? k <;> simp [Map.ValueToString, hget]
  · simp only [Map.ValueToString, (m.m.get?_eq_some_iff k b).mpr hb]
  · simp only [Map.ValueToString, (m.m.get?_eq_none_iff k).mpr habs]

/-- C8 at a concrete map holding `a ↦ "A"`: the present key decodes, the absent
key reports not found. -/
theorem valueToString_ok_iff_present_witness :
    ((newMap 0 : Map StringKey).upsert ⟨"a"⟩ [65]).ValueToString ⟨"a"⟩ = ("A", true) ∧
    ((newMap 0 : Map StringKey).upsert ⟨"a"⟩ [65]).ValueToString ⟨"b"⟩ = ("", false) :=
  ⟨(valueToString_ok_iff_present ((newMap 0 : Map StringKey).upsert ⟨"a"⟩ [65]) ⟨"a"⟩).2.1 [65]
      (by decide),
    (valueToString_ok_iff_present ((newMap 0 : Map StringKey).upsert ⟨"a"⟩ [65]) ⟨"b"⟩).2.2
      (by decide)⟩

end tags

/-! ## The int64 measure: its set of views -/

namespace stats

variable {V : Type} [DecidableEq V]

/-- C9: `removeView v` detaches only `v`.  Afterwards `v` is not in the view
set, every other view is attached exactly when it was before, `viewsCount` went
down by exactly one if `v` was attached and is unchanged otherwise, and name,
unit and description are unchanged. -/
theorem removeView_detaches_only (m : MeasureInt64 V) (v : V) :
    v ∉ (m.removeView v).views.keys ∧
    (∀ w : V, w ≠ v → (w ∈ (m.removeView v).views.keys ↔ w ∈ m.views.keys)) ∧
    (v ∈ m.views.keys → (m.removeView v).viewsCount + 1 = m.viewsCount) ∧
    (v ∉ m.views.keys → (m.removeView v).viewsCount = m.viewsCount) ∧
    (m.removeView v).name = m.name ∧
    (m.removeView v).unit = m.unit ∧
    (m.removeView v).description = m.description := by
  refine ⟨?_, fun w hw => ?_, fun h => ?_, fun h => ?_, rfl, rfl, rfl⟩
  · exact fun h => ((m.views.mem_keys_delete v v).mp h).1 rfl
  · exact (m.views.mem_keys_delete v w).trans (and_iff_right hw)
  · exact m.views.len_delete_of_mem h
  · show (m.views.delete v).len = m.views.len
    rw [m.views.delete_eq_self ((m.views.get?_eq_none_iff v).mpr h)]

/-- C9 at a measure with views `1` and `2`: removing `1` takes the count from
two to one, and removing the unattached `3` leaves it at two. -/
theorem removeView_detaches_only_witness :
    ((⟨"n", "1", "d", GoMap.make 0⟩ : MeasureInt64 Nat).addView 1 |>.addView 2
      |>.removeView 1).viewsCount + 1 = 2 ∧
    ((⟨"n", "1", "d", GoMap.make 0⟩ : MeasureInt64 Nat).addView 1 |>.addView 2
      |>.removeView 3).viewsCount = 2 :=
  ⟨(removeView_detaches_only
      ((⟨"n", "1", "d", GoMap.make 0⟩ : MeasureInt64 Nat).addView 1 |>.addView 2) 1).2.2.1
      (by decide),
    (removeView_detaches_only
      ((⟨"n", "1", "d", GoMap.make 0⟩ : MeasureInt64 Nat).addView 1 |>.addView 2) 3).2.2.2.1
      (by decide)⟩

/-- C10: a measure never holds a view twice.  `addView v` on a measure where `v`
is already attached leaves the view set and `viewsCount` unchanged; where `v` is
not attached it attaches `v`, keeps every other view as it was and raises
`viewsCount` by exactly one; and `viewsCount` is the number of distinct attached
views, before and after. -/
theorem addView_no_duplicate (m : MeasureInt64 V) (v : V) :
    (v ∈ m.views.keys →
      (∀ w : V, w ∈ (m.addView v).views.keys ↔ w ∈ m.views.keys) ∧
      (m.addView v).viewsCount = m.viewsCount) ∧
    (v ∉ m.views.keys →
      (∀ w : V, w ∈ (m.addView v).views.keys ↔ w = v ∨ w ∈ m.views.keys) ∧
      (m.addView v).viewsCount = m.viewsCount + 1) ∧
    m.viewsCount = m.views.keys.toFinset.card ∧
    (m.addView v).viewsCount = (m.addView v).views.keys.toFinset.card := by
  have hcard : ∀ g : GoMap V Bool, g.len = g.keys.toFinset.card := by
    intro g
    show g.entries.length = (g.entries.map Prod.fst).toFinset.card
    rw [List.toFinset_card_of_nodup g.nodup, List.length_map]
  refine ⟨fun h => ⟨fun w => ?_, m.views.len_set_of_mem true h⟩,
    fun h => ⟨m.views.mem_keys_set v true, m.views.len_set_of_not_mem true h⟩,
    hcard m.views, hcard (m.views.set v true)⟩
  show w ∈ (m.views.set v true).keys ↔ w ∈ m.views.keys
  rw [GoMap.mem_keys_set]
  constructor
  · rintro (rfl | hw)
    · exact h
    · exact hw
  · exact Or.inr

/-- C10 at a measure with one view: attaching it again keeps the count at one,
attaching another view makes it two. -/
theorem addView_no_duplicate_witness :
    ((⟨"n", "1", "d", GoMap.make 0⟩ : MeasureInt64 Nat).addView 1 |>.addView 1).viewsCount = 1 ∧
    ((⟨"n", "1", "d", GoMap.make 0⟩ : MeasureInt64 Nat).addView 1 |>.addView 2).viewsCount = 2 :=
  ⟨((addView_no_duplicate ((⟨"n", "1", "d", GoMap.make 0⟩ : MeasureInt64 Nat).addView 1) 1).1
      (by decide)).2,
    ((addView_no_duplicate ((⟨"n", "1", "d", GoMap.make 0⟩ : MeasureInt64 Nat).addView 1) 2).2.1
      (by decide)).2⟩

end stats

/-! ## The tag map: sequences of calls against the reference model -/

namespace tags

variable {K : Type} [DecidableEq K]

/-- One call keeps the map and the reference model in step. -/
theorem call_refines (m : Map K) (f : Model K) (h : ∀ x, m.m.get? x = f x) (c : Call K) :
    ∀ x, (m.call c).m.get? x = f.call c x := by
  intro x
  cases c with
  | insert k v =>
    simp only [Map.call, Model.call, Map.insert]
    cases hk : m.m.get? k with
    | some b =>
      have hf : f k = some b := (h k).symm.trans hk
      by_cases hx : x = k
      · simp [hx, hf, hk]
      · simp [hx, h x]
    | none =>
      have hf : f k = none := (h k).symm.trans hk
      by_cases hx : x = k
      · subst hx
        simp [hf, GoMap.get?_set_self]
      · simp [hx, GoMap.get?_set_of_ne _ _ hx, h x]
  | update k v =>
    simp only [Map.call, Model.call, Map.update]
    cases hk : m.m.get? k with
    | some b =>
      have hf : f k = some b := (h k).symm.trans hk
      by_cases hx : x = k
      · subst hx
        simp [hf, GoMap.get?_set_self]
      · simp [hx, GoMap.get?_set_of_ne _ _ hx, h x]
    | none =>
      have hf : f k = none := (h k).symm.trans hk
      by_cases hx : x = k
      · simp [hx, hf, hk]
      · simp [hx, h x]
  | upsert k v =>
    simp only [Map.call, Model.call, Map.upsert]
    by_cases hx : x = k
    · subst hx
      simp [GoMap.get?_set_self]
    · simp [hx, GoMap.get?_set_of_ne _ _ hx, h x]
  | delete k =>
    simp only [Map.call, Model.call, Map.delete]
    by_cases hx : x = k
    · subst hx
      simp [GoMap.get?_delete_self]
    · simp [hx, GoMap.get?_delete_of_ne _ hx, h x]

/-- A sequence of calls keeps the map and the reference model in step. -/
theorem calls_refine (cs : List (Call K)) :
    ∀ (m : Map K) (f : Model K), (∀ x, m.m.get? x = f x) →
      ∀ x, (m.calls cs).m.get? x = f.calls cs x := by
  induction cs with
  | nil => exact fun m f h => h
  | cons c cs ih => exact fun m f h => ih (m.call c) (f.call c) (call_refines m f h c)

/-- A call on one key leaves the entry of every other key as it was. -/
theorem call_frame (m : Map K) (c : Call K) (x : K) (hx : x ≠ c.key) :
    (m.call c).m.get? x = m.m.get? x := by
  cases c with
  | insert k v =>
    simp only [Map.call, Map.insert]
    cases hk : m.m.get? k with
    | some b => rfl
    | none => exact m.m.get?_set_of_ne v hx
  | update k v =>
    simp only [Map.call, Map.update]
    cases hk : m.m.get? k with
    | some b => exact m.m.get?_set_of_ne v hx
    | none => rfl
  | upsert k v => exact m.m.get?_set_of_ne v hx
  | delete k => exact m.m.get?_delete_of_ne hx

/-- C5: every finite sequence of `insert`/`update`/`upsert`/`delete` calls on a
map obtained from `newMap` ends with the key set and the values of the reference
model folded over the same calls from the empty mapping; each key occurs at most
once; and a call on one key leaves the presence and value of every other key
unchanged. -/
theorem calls_match_reference_model (sizeHint : Int) (cs : List (Call K)) :
    (∀ k : K, ((newMap sizeHint : Map K).calls cs).m.get? k = Model.empty.calls cs k) ∧
    (∀ k : K, k ∈ ((newMap sizeHint : Map K).calls cs).m.keys ↔
      (Model.empty.calls cs k).isSome = true) ∧
    ((newMap sizeHint : Map K).calls cs).m.keys.Nodup ∧
    (∀ (m : Map K) (c : Call K) (x : K), x ≠ c.key →
      (m.call c).m.get? x = m.m.get? x ∧ (x ∈ (m.call c).m.keys ↔ x ∈ m.m.keys)) := by
  have h := calls_refine cs (newMap sizeHint : Map K) Model.empty (fun _ => rfl)
  refine ⟨h, fun k => ?_, GoMap.nodup _, fun m c x hx => ⟨call_frame m c x hx, ?_⟩⟩
  · rw [← GoMap.get?_isSome_iff, h k]
  · rw [← GoMap.get?_isSome_iff, ← GoMap.get?_isSome_iff, call_frame m c x hx]

/-- C5 on the two examples of the spec: `insert(K,V1); insert(K,V2)` leaves
`V1`, and `update(K,V1)` on the empty map leaves no key `K`; with the frame
property applied to a call on another key. -/
theorem calls_match_reference_model_witness :
    ((newMap 0 : Map StringKey).calls [.insert ⟨"K"⟩ [1], .insert ⟨"K"⟩ [2]]).m.get? ⟨"K"⟩
      = some [1] ∧
    ((newMap 0 : Map StringKey).calls [.update ⟨"K"⟩ [1]]).m.get? ⟨"K"⟩ = none ∧
    (((newMap 0 : Map StringKey).upsert ⟨"a"⟩ [1]).call (.delete ⟨"b"⟩)).m.get? ⟨"a"⟩
      = some [1] :=
  ⟨(calls_match_reference_model 0
      ([.insert ⟨"K"⟩ [1], .insert ⟨"K"⟩ [2]] : List (Call StringKey))).1 ⟨"K"⟩,
    (calls_match_reference_model 0 ([.update ⟨"K"⟩ [1]] : List (Call StringKey))).1 ⟨"K"⟩,
    ((calls_match_reference_model (0 : Int) ([] : List (Call StringKey))).2.2.2
      ((newMap 0 : Map StringKey).upsert ⟨"a"⟩ [1]) (.delete ⟨"b"⟩) ⟨"a"⟩ (by decide)).1⟩

end tags

/-! ## The tag map: rendering to text -/

theorem stringLess_iff (a b : String) : stringLess a b = true ↔ a < b := by
  simp [stringLess, String.lt_iff_toList_lt]

theorem stringLess_eq_false_iff (a b : String) : stringLess b a = false ↔ a ≤ b := by
  rw [← Bool.not_eq_true, stringLess_iff, not_lt]

theorem sortSlice_perm {α : Type} (less : α → α → Bool) (s : List α) :
    (sortSlice less s).Perm s :=
  List.perm_insertionSort _ s

/-- Sorting by a name brings the names into ascending order. -/
theorem sortSlice_pairwise_le {α : Type} (name : α → String) (s : List α) :
    (sortSlice (fun a b => stringLess (name a) (name b)) s).Pairwise
      (fun a b => name a ≤ name b) := by
  have htotal : IsTotal α (fun a b => stringLess (name b) (name a) = false) :=
    ⟨fun a b => by
      simp only [stringLess_eq_false_iff]
      exact le_total (name a) (name b)⟩
  have htrans : IsTrans α (fun a b => stringLess (name b) (name a) = false) :=
    ⟨fun a b c => by
      simp only [stringLess_eq_false_iff]
      exact le_trans⟩
  have hs := List.sorted_insertionSort (fun a b => stringLess (name b) (name a) = false) s
  exact List.Pairwise.imp (fun {a b} hab => (stringLess_eq_false_iff (name a) (name b)).mp hab) hs

/-- The `range` loop that appends every key collects the keys in visiting
order. -/
theorem foldl_append_singleton {α : Type} (l acc : List α) :
    l.foldl (fun keys k => keys ++ [k]) acc = acc ++ l := by
  induction l generalizing acc with
  | nil => simp
  | cons a l ih => simp [ih]

theorem string_join_cons (a : String) (l : List String) :
    String.join (a :: l) = a ++ String.join l := by
  apply String.ext
  simp

theorem string_join_append (l₁ l₂ : List String) :
    String.join (l₁ ++ l₂) = String.join l₁ ++ String.join l₂ := by
  apply String.ext
  simp

/-- Writing one text per key to a buffer appends their concatenation. -/
theorem foldl_write_eq_join {α : Type} (f : α → String) (ks : List α) (buffer : String) :
    ks.foldl (fun buffer k => buffer ++ f k) buffer = buffer ++ String.join (ks.map f) := by
  induction ks generalizing buffer with
  | nil =>
    apply String.ext
    simp
  | cons a ks ih =>
    rw [List.foldl_cons, ih, List.map_cons, string_join_cons, String.append_assoc]

namespace tags

theorem sortedKeys_perm {K : Type} [Key K] (m : Map K) : m.sortedKeys.Perm m.m.keys := by
  have h := sortSlice_perm (fun a b : K => stringLess (Key.Name a) (Key.Name b)) m.m.keys
  simpa [Map.sortedKeys, foldl_append_singleton] using h

theorem sortedKeys_pairwise_le {K : Type} [Key K] (m : Map K) :
    m.sortedKeys.Pairwise (fun a b => Key.Name a ≤ Key.Name b) :=
  sortSlice_pairwise_le Key.Name _

variable {K : Type} [DecidableEq K]

/-- Two maps with the same entry for every key have the same keys up to order. -/
theorem keys_perm_of_get?_eq (m₁ m₂ : Map K) (h : ∀ k, m₁.m.get? k = m₂.m.get? k) :
    m₁.m.keys.Perm m₂.m.keys := by
  apply (List.perm_ext_iff_of_nodup m₁.m.nodup m₂.m.nodup).mpr
  intro k
  have h1 := m₁.m.get?_isSome_iff k
  have h2 := m₂.m.get?_isSome_iff k
  rw [h k] at h1
  exact h1.symm.trans h2

/-- C7: `Map.String` does not depend on insertion order or on the order in
which the storage is visited.  Two maps with the same entry for every key,
whatever the order of their storage, render to the same text, and the rendered
order is the only arrangement of the keys in ascending name order, so no
sorting procedure could render another.  Keys are identified by name (spec,
data model): the keys of the map have pairwise different names. -/
theorem string_independent_of_order [Key K] (m₁ m₂ : Map K)
    (hname : ∀ a ∈ m₁.m.keys, ∀ b ∈ m₁.m.keys, Key.Name a = Key.Name b → a = b)
    (hsame : ∀ k : K, m₁.m.get? k = m₂.m.get? k) :
    m₁.String = m₂.String ∧
    ∀ ks : List K, ks.Perm m₁.m.keys → ks.Pairwise (fun a b => Key.Name a ≤ Key.Name b) →
      ks = m₁.sortedKeys := by
  have hanti : IsAntisymm K (fun a b => Key.Name a < Key.Name b) :=
    ⟨fun a b hab hba => absurd hab (lt_asymm hba)⟩
  have hstrict : ∀ ks : List K, ks.Perm m₁.m.keys →
      ks.Pairwise (fun a b => Key.Name a ≤ Key.Name b) →
      ks.Pairwise (fun a b => Key.Name a < Key.Name b) := by
    intro ks hp hle
    refine List.Pairwise.imp_of_mem ?_ (hle.and (hp.nodup_iff.mpr m₁.m.nodup))
    intro a b ha hb hab
    exact lt_of_le_of_ne hab.1
      (fun hn => hab.2 (hname a (hp.mem_iff.mp ha) b (hp.mem_iff.mp hb) hn))
  refine ⟨?_, fun ks hp hle => List.eq_of_perm_of_sorted (hp.trans (sortedKeys_perm m₁).symm)
    (hstrict ks hp hle) (hstrict _ (sortedKeys_perm m₁) (sortedKeys_pairwise_le m₁))⟩
  have hperm : m₁.sortedKeys.Perm m₂.sortedKeys :=
    (sortedKeys_perm m₁).trans ((keys_perm_of_get?_eq m₁ m₂ hsame).trans (sortedKeys_perm m₂).symm)
  have hkeys : m₁.sortedKeys = m₂.sortedKeys :=
    List.eq_of_perm_of_sorted hperm
      (hstrict _ (sortedKeys_perm m₁) (sortedKeys_pairwise_le m₁))
      (hstrict _ (hperm.symm.trans (sortedKeys_perm m₁)) (sortedKeys_pairwise_le m₂))
  have hindex : ∀ k : K, m₁.m.index k [] = m₂.m.index k [] := by
    intro k
    simp only [GoMap.index, hsame k]
  simp only [Map.String, hkeys, hindex]

/-- C7 at two maps holding `a` and `b`, filled in opposite orders: their
storage orders differ and their texts agree. -/
theorem string_independent_of_order_witness :
    (((newMap 0 : Map StringKey).insert ⟨"a"⟩ [65]).insert ⟨"b"⟩ [66]).m.entries ≠
      (((newMap 0 : Map StringKey).insert ⟨"b"⟩ [66]).insert ⟨"a"⟩ [65]).m.entries ∧
    (((newMap 0 : Map StringKey).insert ⟨"a"⟩ [65]).insert ⟨"b"⟩ [66]).String =
      (((newMap 0 : Map StringKey).insert ⟨"b"⟩ [66]).insert ⟨"a"⟩ [65]).String :=
  ⟨by decide,
    (string_independent_of_order
      (((newMap 0 : Map StringKey).insert ⟨"a"⟩ [65]).insert ⟨"b"⟩ [66])
      (((newMap 0 : Map StringKey).insert ⟨"b"⟩ [66]).insert ⟨"a"⟩ [65])
      (fun a _ b _ h => by
        cases a
        cases b
        exact congrArg StringKey.mk h)
      (GoMap.get?_eq_of_perm _ _ (List.Perm.swap _ _ _))).1⟩

end tags

/-! ## The default gRPC data: keys, bucket boundaries, windows -/

namespace grpc.stats

/-- C11, as the code has it: when `tags.NewStringKey("grpc.service")` fails,
`createDefaultKeys` does not return an error to its caller; `log.Fatalf` ends
the process with exit status 1. -/
theorem createDefaultKeys_exits_on_failure :
    createDefaultKeys (fun _ => (⟨""⟩, some "DuplicateKeyMismatch")) ⟨⟨""⟩, ⟨""⟩, ⟨""⟩⟩ =
      .exits 1
        "tags.NewStringKey(\"grpc.service\") failed to create/retrieve keyService. DuplicateKeyMismatch" := by
  decide

/-- C11, amended: `createDefaultKeys` returns to its caller, with `keyService`,
`keyMethod` and `keyOpStatus` set to the keys created, when all three calls of
`tags.NewStringKey` succeed; when creating any of the three keys fails the
process ends with exit status 1 and a log line, and nothing is returned. -/
theorem createDefaultKeys_returns_or_exits
    (NewStringKey : String → tags.StringKey × Option String) (g : DefaultKeys) :
    ((NewStringKey "grpc.service").2 = none → (NewStringKey "grpc.method").2 = none →
      (NewStringKey "grpc.opstatus").2 = none →
      createDefaultKeys NewStringKey g =
        .returns ⟨(NewStringKey "grpc.service").1, (NewStringKey "grpc.method").1,
          (NewStringKey "grpc.opstatus").1⟩) ∧
    (¬ ((NewStringKey "grpc.service").2 = none ∧ (NewStringKey "grpc.method").2 = none ∧
        (NewStringKey "grpc.opstatus").2 = none) →
      ∃ logged : String, createDefaultKeys NewStringKey g = .exits 1 logged) := by
  rcases h1 : NewStringKey "grpc.service" with ⟨k1, e1⟩
  rcases h2 : NewStringKey "grpc.method" with ⟨k2, e2⟩
  rcases h3 : NewStringKey "grpc.opstatus" with ⟨k3, e3⟩
  constructor
  · rintro ⟨⟩ ⟨⟩ ⟨⟩
    simp only [createDefaultKeys, h1, h2, h3]
  · intro hfail
    cases e1 with
    | some a => exact ⟨_, by (simp only [createDefaultKeys, h1, logFatalf]; rfl)⟩
    | none =>
      cases e2 with
      | some a => exact ⟨_, by (simp only [createDefaultKeys, h1, h2, logFatalf]; rfl)⟩
      | none =>
        cases e3 with
        | some a => exact ⟨_, by (simp only [createDefaultKeys, h1, h2, h3, logFatalf]; rfl)⟩
        | none => exact absurd ⟨rfl, rfl, rfl⟩ hfail

/-- C11, amended, at concrete outcomes: three successful creations set the
three keys, and a failure for `grpc.method` alone ends the process. -/
theorem createDefaultKeys_returns_or_exits_witness :
    createDefaultKeys (fun name => (⟨name⟩, none)) ⟨⟨""⟩, ⟨""⟩, ⟨""⟩⟩ =
      .returns ⟨⟨"grpc.service"⟩, ⟨"grpc.method"⟩, ⟨"grpc.opstatus"⟩⟩ ∧
    ∃ logged : String,
      createDefaultKeys
        (fun name => (⟨name⟩, if name = "grpc.method" then some "mismatch" else none))
        ⟨⟨""⟩, ⟨""⟩, ⟨""⟩⟩ = .exits 1 logged :=
  ⟨(createDefaultKeys_returns_or_exits (fun name => (⟨name⟩, none)) ⟨⟨""⟩, ⟨""⟩, ⟨""⟩⟩).1
      rfl rfl rfl,
    (createDefaultKeys_returns_or_exits
      (fun name => (⟨name⟩, if name = "grpc.method" then some "mismatch" else none))
      ⟨⟨""⟩, ⟨""⟩, ⟨""⟩⟩).2 (by decide)⟩

/-- C12: each of the three default lists of bucket boundaries is strictly
ascending, every boundary being less than the one after it (and so than every
later one); and `rpcCountBucketBoundaries` is the 18-element list
0, 1, 2, 4, ..., 65536 of the spec, that is 0 followed by the powers of two up
to `2^16`. -/
theorem bucket_boundaries_strictly_ascending :
    (rpcBytesBucketBoundaries.Chain' (· < ·) ∧ rpcBytesBucketBoundaries.Pairwise (· < ·)) ∧
    (rpcMillisBucketBoundaries.Chain' (· < ·) ∧ rpcMillisBucketBoundaries.Pairwise (· < ·)) ∧
    (rpcCountBucketBoundaries.Chain' (· < ·) ∧ rpcCountBucketBoundaries.Pairwise (· < ·)) ∧
    rpcCountBucketBoundaries.length = 18 ∧
    rpcCountBucketBoundaries =
      [0, 1, 2, 4, 8, 16, 32, 64, 128, 256, 512, 1024, 2048, 4096, 8192, 16384, 32768, 65536] ∧
    rpcCountBucketBoundaries = 0 :: (List.range 17).map (fun i => (2 : ℚ) ^ i) := by
  have hb : rpcBytesBucketBoundaries.Pairwise (· < ·) := by decide
  have hm : rpcMillisBucketBoundaries.Pairwise (· < ·) := by decide
  have hc : rpcCountBucketBoundaries.Pairwise (· < ·) := by decide
  exact ⟨⟨hb.chain', hb⟩, ⟨hm.chain', hm⟩, ⟨hc.chain', hc⟩, rfl, rfl, by decide⟩

/-- C16: both default sliding-time windows use the default subbucket count.
`windowSlidingHour` lasts one hour and `windowSlidingMinute` one minute, both
have 6 intervals, which is `slidingTimeSubuckets`, and each duration is an exact
multiple of its number of intervals. -/
theorem sliding_windows_use_default_subbuckets :
    windowSlidingHour.Duration = time.Hour ∧
    windowSlidingHour.Duration = 3600 * 1000000000 ∧
    windowSlidingHour.Intervals = 6 ∧
    windowSlidingMinute.Duration = time.Minute ∧
    windowSlidingMinute.Duration = 60 * 1000000000 ∧
    windowSlidingMinute.Intervals = 6 ∧
    windowSlidingHour.Intervals = slidingTimeSubuckets ∧
    windowSlidingMinute.Intervals = slidingTimeSubuckets ∧
    windowSlidingHour.Duration % windowSlidingHour.Intervals = 0 ∧
    windowSlidingMinute.Duration % windowSlidingMinute.Intervals = 0 := by
  decide

end grpc.stats

/-! ## The int64 measure: measurements -/

namespace stats

/-- C13: `m.M(v)` returns a measurement whose owning measure is `m` and whose
value is exactly `v`, and the call leaves `m` unchanged: name, unit, description
and view set. -/
theorem M_returns_measurement_of_m {V : Type} (m : MeasureInt64 V) (v : Int) :
    (m.M v).1.m = m ∧
    (m.M v).1.v = v ∧
    (m.M v).2 = m ∧
    (m.M v).2.name = m.name ∧
    (m.M v).2.unit = m.unit ∧
    (m.M v).2.description = m.description ∧
    (m.M v).2.views = m.views :=
  ⟨rfl, rfl, rfl, rfl, rfl, rfl, rfl⟩

end stats

/-! ## The tag map: construction and relations between the mutators -/

namespace tags

variable {K : Type} [DecidableEq K]

/-- C15: `newMap` returns an empty map for every size hint.  For every hint and
every key, `ValueToString` on the new map is the empty text with `false`; the
map has no entry, and two hints give the same map. -/
theorem newMap_is_empty [Key K] (sizeHint : Int) (k : K) :
    (newMap sizeHint : Map K).ValueToString k = ("", false) ∧
    (newMap sizeHint : Map K).m.entries = [] ∧
    (newMap sizeHint : Map K).m.len = 0 ∧
    ∀ otherHint : Int, (newMap sizeHint : Map K) = newMap otherHint :=
  ⟨rfl, rfl, rfl, fun _ => rfl⟩

/-- C17: `upsert` is `update` followed by `insert`.  For every map, key and
value, the map after `upsert k v` is the map after `update k v` and then
`insert k v`. -/
theorem upsert_eq_update_then_insert (m : Map K) (k : K) (v : Bytes) :
    m.upsert k v = (m.update k v).insert k v := by
  cases hk : m.m.get? k with
  | none => simp only [Map.upsert, Map.update, Map.insert, hk]
  | some b =>
    have hset : (Map.mk (m.m.set k v)).m.get? k = some v := m.m.get?_set_self k v
    simp only [Map.upsert, Map.update, Map.insert, hk, hset]

end tags

/-! ## The tag map: the exact text, and calls on distinct keys -/

namespace GoMap

/-- The plain index expression at a key of the map gives the stored value. -/
theorem index_of_mem {κ β : Type} [DecidableEq κ] (m : GoMap κ β) {k : κ} {b : β} (zero : β)
    (h : (k, b) ∈ m.entries) : m.index k zero = b := by
  simp only [index, (m.get?_eq_some_iff k b).mpr h, Option.getD_some]

end GoMap

namespace tags

variable {K : Type} [DecidableEq K]

/-- Two maps with the same entry for every key have the same entries up to
order. -/
theorem entries_perm_of_get?_eq (m₁ m₂ : Map K) (h : ∀ k, m₁.m.get? k = m₂.m.get? k) :
    m₁.m.entries.Perm m₂.m.entries := by
  apply (List.perm_ext_iff_of_nodup (List.Nodup.of_map _ m₁.m.nodup)
    (List.Nodup.of_map _ m₂.m.nodup)).mpr
  rintro ⟨k, b⟩
  rw [← GoMap.get?_eq_some_iff, ← GoMap.get?_eq_some_iff, h k]

/-- On the reference model, calls on distinct keys commute. -/
theorem model_call_comm (f : Model K) (c₁ c₂ : Call K) (h : c₁.key ≠ c₂.key) :
    (f.call c₁).call c₂ = (f.call c₂).call c₁ := by
  rcases c₁ with ⟨k₁, v₁⟩ | ⟨k₁, v₁⟩ | ⟨k₁, v₁⟩ | ⟨k₁⟩ <;>
  rcases c₂ with ⟨k₂, v₂⟩ | ⟨k₂, v₂⟩ | ⟨k₂, v₂⟩ | ⟨k₂⟩ <;>
  · simp only [Call.key] at h
    have h' : k₂ ≠ k₁ := Ne.symm h
    funext x
    by_cases h1 : x = k₁ <;> by_cases h2 : x = k₂ <;> simp_all [Model.call]

/-- The entries of a map, sorted by key name, as `Map.String` renders them. -/
theorem sortedEntries_spec [Key K] (m : Map K) :
    (m.sortedKeys.map (fun k => (k, m.m.index k []))).Perm m.m.entries ∧
    (m.sortedKeys.map (fun k => (k, m.m.index k []))).Pairwise
      (fun a b => Key.Name a.1 ≤ Key.Name b.1) := by
  constructor
  · have hp := (sortedKeys_perm m).map (fun k => (k, m.m.index k []))
    have he : m.m.keys.map (fun k => (k, m.m.index k [])) = m.m.entries := by
      simp only [GoMap.keys, List.map_map]
      conv_rhs => rw [← List.map_id m.m.entries]
      apply List.map_congr_left
      rintro ⟨k, b⟩ hkb
      simp only [Function.comp, id, m.m.index_of_mem [] hkb]
    rw [he] at hp
    exact hp
  · exact List.pairwise_map.mpr (sortedKeys_pairwise_le m)

/-- The text of `Map.String`, written out over the entries sorted by key name. -/
theorem string_eq_join_sortedEntries [Key K] (m : Map K) :
    m.String = "\x7b " ++ String.join ((m.sortedKeys.map (fun k => (k, m.m.index k []))).map
      (fun e => "\x7b" ++ Key.Name e.1 ++ " " ++ Key.ValueToString e.1 e.2 ++ "\x7d")) ++ " \x7d" := by
  simp only [Map.String, foldl_write_eq_join, List.map_map]
  rfl

/-- C6: the text `Map.String` returns lists the keys of the map in ascending
order of key name, and every key of the map is rendered.  The text is the
opening, then for each element of a list of entries, in the order of the list,
the key name and the decoded value in braces, then the closing; in that list a
key that comes before another has a name less than or equal to the other name,
and the list holds every key of the map exactly once, with its stored value.
So for every key of the map the text contains the entry that starts with a
brace and the name of the key. -/
theorem string_keys_ascending [Key K] (m : Map K) :
    (∃ es : List (K × Bytes),
      m.String = "\x7b " ++ String.join (es.map (fun e =>
        "\x7b" ++ Key.Name e.1 ++ " " ++ Key.ValueToString e.1 e.2 ++ "\x7d")) ++ " \x7d" ∧
      (es.map Prod.fst).Pairwise (fun a b => Key.Name a ≤ Key.Name b) ∧
      (∀ k : K, k ∈ es.map Prod.fst ↔ k ∈ m.m.keys) ∧
      (es.map Prod.fst).Perm m.m.keys ∧
      es.Perm m.m.entries) ∧
    (∀ (k : K) (b : Bytes), (k, b) ∈ m.m.entries →
      ∃ before after : String,
        m.String = before ++
          ("\x7b" ++ Key.Name k ++ " " ++ Key.ValueToString k b ++ "\x7d") ++ after) := by
  have hperm := (sortedEntries_spec m).1
  have hkeys : ((m.sortedKeys.map (fun k => (k, m.m.index k []))).map Prod.fst).Perm m.m.keys :=
    hperm.map Prod.fst
  refine ⟨⟨_, string_eq_join_sortedEntries m, List.pairwise_map.mpr (sortedEntries_spec m).2,
    fun _ => hkeys.mem_iff, hkeys, hperm⟩, fun k b hkb => ?_⟩
  obtain ⟨l₁, l₂, hl⟩ := List.append_of_mem (hperm.mem_iff.mpr hkb)
  refine ⟨"\x7b " ++ String.join (l₁.map (fun e =>
      "\x7b" ++ Key.Name e.1 ++ " " ++ Key.ValueToString e.1 e.2 ++ "\x7d")),
    String.join (l₂.map (fun e =>
      "\x7b" ++ Key.Name e.1 ++ " " ++ Key.ValueToString e.1 e.2 ++ "\x7d")) ++ " \x7d", ?_⟩
  rw [string_eq_join_sortedEntries m, hl, List.map_append, List.map_cons, string_join_append,
    string_join_cons]
  simp only [String.append_assoc]

/-- C6 at a map filled in descending order of name: the text lists `a` before
`b`, and the entry of the key `b` is part of the text. -/
theorem string_keys_ascending_witness :
    (((newMap 0 : Map StringKey).insert ⟨"b"⟩ [66]).insert ⟨"a"⟩ [65]).String =
      "\x7b \x7ba A\x7d\x7bb B\x7d \x7d" ∧
    ∃ before after : String,
      (((newMap 0 : Map StringKey).insert ⟨"b"⟩ [66]).insert ⟨"a"⟩ [65]).String =
        before ++ "\x7bb B\x7d" ++ after :=
  ⟨by decide,
    (string_keys_ascending (((newMap 0 : Map StringKey).insert ⟨"b"⟩ [66]).insert ⟨"a"⟩ [65])).2
      ⟨"b"⟩ [66] (by decide)⟩

/-- C14: `Map.String` returns the opening brace and blank, then for each entry
of the map, in ascending order of key name and with nothing between entries,
the text of `name` and `value` in braces, where `value` is the key's own
`ValueToString` of its stored bytes, then the blank and closing brace.  A map
with `n` keys renders exactly `n` entries, and the empty map renders as the
opening and the closing with nothing between them. -/
theorem string_exact_text [Key K] (m : Map K) :
    (∃ es : List (K × Bytes),
      es.Perm m.m.entries ∧
      es.Pairwise (fun a b => Key.Name a.1 ≤ Key.Name b.1) ∧
      es.length = m.m.len ∧
      m.String = "\x7b " ++ String.join (es.map (fun e =>
        "\x7b" ++ Key.Name e.1 ++ " " ++ Key.ValueToString e.1 e.2 ++ "\x7d")) ++ " \x7d") ∧
    (m.m.entries = [] → m.String = "\x7b  \x7d") ∧
    ∀ sizeHint : Int, (newMap sizeHint : Map K).String = "\x7b  \x7d" := by
  refine ⟨⟨m.sortedKeys.map (fun k => (k, m.m.index k [])), (sortedEntries_spec m).1,
    (sortedEntries_spec m).2, (sortedEntries_spec m).1.length_eq, ?_⟩, fun h => ?_, fun _ => rfl⟩
  · simp only [Map.String, foldl_write_eq_join, List.map_map]
    rfl
  · obtain ⟨⟨l, hl⟩⟩ := m
    cases h
    rfl

/-- C14 at a map with two keys, inserted in descending order of name. -/
theorem string_exact_text_witness :
    (((newMap 0 : Map StringKey).insert ⟨"b"⟩ [66]).insert ⟨"a"⟩ [65, 67]).String =
      "\x7b \x7ba AC\x7d\x7bb B\x7d \x7d" ∧
    (newMap 0 : Map StringKey).String = "\x7b  \x7d" :=
  ⟨by decide, (string_exact_text (newMap 0 : Map StringKey)).2.1 rfl⟩

/-- C18: mutators on distinct keys commute.  For two calls, each one of
`insert`, `update`, `upsert`, `delete` with any values, on different keys, the
map after the first then the second holds the same entry for every key as the
map after the second then the first, and the two have the same entries up to
the order of storage. -/
theorem calls_on_distinct_keys_commute (m : Map K) (c₁ c₂ : Call K) (h : c₁.key ≠ c₂.key) :
    (∀ x : K, ((m.call c₁).call c₂).m.get? x = ((m.call c₂).call c₁).m.get? x) ∧
    (∀ x : K, x ∈ ((m.call c₁).call c₂).m.keys ↔ x ∈ ((m.call c₂).call c₁).m.keys) ∧
    ((m.call c₁).call c₂).m.entries.Perm ((m.call c₂).call c₁).m.entries := by
  have hget : ∀ x : K, ((m.call c₁).call c₂).m.get? x = ((m.call c₂).call c₁).m.get? x := by
    intro x
    have h12 := call_refines (m.call c₁) (Model.call (fun y => m.m.get? y) c₁)
      (call_refines m (fun y => m.m.get? y) (fun _ => rfl) c₁) c₂ x
    have h21 := call_refines (m.call c₂) (Model.call (fun y => m.m.get? y) c₂)
      (call_refines m (fun y => m.m.get? y) (fun _ => rfl) c₂) c₁ x
    rw [h12, h21, model_call_comm _ c₁ c₂ h]
  refine ⟨hget, fun x => ?_, entries_perm_of_get?_eq _ _ hget⟩
  rw [← GoMap.get?_isSome_iff, ← GoMap.get?_isSome_iff, hget x]

/-- C18 at the empty map: inserting `a` and upserting `b`, in either order. -/
theorem calls_on_distinct_keys_commute_witness :
    (((newMap 0 : Map StringKey).call (.insert ⟨"a"⟩ [1])).call (.upsert ⟨"b"⟩ [2])).m.entries.Perm
      (((newMap 0 : Map StringKey).call (.upsert ⟨"b"⟩ [2])).call (.insert ⟨"a"⟩ [1])).m.entries :=
  (calls_on_distinct_keys_commute (newMap 0 : Map StringKey) (.insert ⟨"a"⟩ [1])
    (.upsert ⟨"b"⟩ [2]) (by decide)).2.2

end tags
